import Mathlib

/-!
Verification of the tokenization pipeline of `src/tokenization.ipynb`.

The notebook builds a WordPiece vocabulary with
`bert_vocab_from_dataset`, persists it one piece per line
(`write_vocab_file`), and wraps `text.BertTokenizer` in a
`CustomTokenizer` that case-folds the input, tokenizes, frames the id
sequence with `[START]`/`[END]` sentinels (`add_start_end`), and on the
way back detokenizes and strips reserved tokens (`cleanup_text`).

Strings are embedded as `List Char`; token ids as `Nat` (the source's
int64 ids produced by the pipeline are non-negative); fallible
operations (`tf.gather` on an out-of-range index) return `Option`.
The greedy longest-match WordPiece decomposition, the word splitter and
the case folding live in `tensorflow_text`, outside this repository;
they are modelled from the spec (§4.1, §4.3) where noted.
-/

namespace Tok

/-- Vocabulary piece: a string, embedded as its character list. -/
abbrev Piece := List Char

/-- Reserved sentinel tokens. Modelled from the spec: `config.RESERVED_TOKENS`
lives in the repository's `config` module, which is not under `src/`; the
spec (§3, §8 concrete scenario) fixes the order pad, unknown, start, end. -/
def RESERVED_TOKENS : List Piece :=
  ["[PAD]".toList, "[UNK]".toList, "[START]".toList, "[END]".toList]

/-- Equality scan `tf.argmax(tokens == s)`: the index of the first element
equal to `s`, and 0 when no element matches (argmax of an all-false
boolean vector is 0). -/
def argmaxEq (toks : List Piece) (s : Piece) : Nat :=
  match toks.findIdx? (fun t => t == s) with
  | some i => i
  | none => 0

/-- Start sentinel id: `START = tf.argmax(tf.constant(config.RESERVED_TOKENS) == "[START]")`. -/
def startIdx (reserved : List Piece) : Nat := argmaxEq reserved "[START]".toList

/-- End sentinel id: `END = tf.argmax(tf.constant(config.RESERVED_TOKENS) == "[END]")`. -/
def endIdx (reserved : List Piece) : Nat := argmaxEq reserved "[END]".toList

/-- Sequence framing `add_start_end`, per sequence: prepend the start id and
append the end id (the source concatenates a start column, the ragged
batch and an end column; each row is one id sequence). -/
def add_start_end (reserved : List Piece) (ids : List Nat) : List Nat :=
  startIdx reserved :: ids ++ [endIdx reserved]

/-- Whitespace test for the word splitter. Modelled from the spec (§4.3):
split on whitespace. -/
def isSpace (c : Char) : Bool := c == ' ' || c == '\t' || c == '\n' || c == '\r'

/-- Punctuation test for the word splitter. Modelled from the spec (§4.3):
a fixed set of punctuation boundaries; the ASCII punctuation characters. -/
def isPunct (c : Char) : Bool :=
  c ∈ (['!', '"', '#', '$', '%', '&', '\'', '(', ')', '*', '+', ',', '-', '.',
        '/', ':', ';', '<', '=', '>', '?', '@', '[', '\\', ']', '^', '_',
        '`', '{', '|', '}', '~'] : List Char)

/-- Word splitter worker: `acc` is the word fragment accumulated so far. -/
def splitWordsAux : List Char → List Char → List (List Char)
  | [], acc => if acc.isEmpty then [] else [acc]
  | c :: cs, acc =>
    if isSpace c then
      (if acc.isEmpty then [] else [acc]) ++ splitWordsAux cs []
    else if isPunct c then
      (if acc.isEmpty then [] else [acc]) ++ [c] :: splitWordsAux cs []
    else
      splitWordsAux cs (acc ++ [c])

/-- Word splitting. Modelled from the spec (§4.3): split normalized text on
whitespace and punctuation boundaries; punctuation characters are emitted
as their own single-character words. -/
def splitWords (s : List Char) : List (List Char) := splitWordsAux s []

/-- Continuation marker `##` distinguishing a non-initial piece. -/
def marker : Piece := ['#', '#']

/-- Form looked up in the vocabulary: continuation-marked unless at the
start of the word. -/
def markerize (atStart : Bool) (p : Piece) : Piece :=
  if atStart then p else marker ++ p

/-- Longest `k` with `1 ≤ k ≤ cs.length` whose (possibly continuation-marked)
`k`-character chunk is in the vocabulary. Modelled from the spec (§4.3):
greedy longest-prefix match, including the single-character fallback. -/
def longestMatch (vocab : List Piece) (atStart : Bool) (cs : List Char) : Option Nat :=
  (List.range' 1 cs.length).reverse.find?
    (fun k => vocab.contains (markerize atStart (List.take k cs)))

/-- Greedy WordPiece decomposition of one word into vocabulary ids; `none`
when at some position no piece (not even one character) matches. Modelled
from the spec (§4.3). The fuel argument bounds recursion; each step
consumes at least one character, so `fuel = cs.length` suffices. -/
def wordpieceLoop (vocab : List Piece) : Nat → Bool → List Char → Option (List Nat)
  | _, _, [] => some []
  | 0, _, _ :: _ => none
  | fuel + 1, atStart, c :: cs =>
    match longestMatch vocab atStart (c :: cs) with
    | none => none
    | some k =>
      match wordpieceLoop vocab fuel false (List.drop k (c :: cs)) with
      | none => none
      | some ids => some (List.indexOf (markerize atStart (List.take k (c :: cs))) vocab :: ids)

/-- Id of the configured unknown token `[UNK]` in the vocabulary. -/
def unkId (vocab : List Piece) : Nat := List.indexOf "[UNK]".toList vocab

/-- Tokenization of one word: its greedy decomposition, or the single
unknown id when decomposition fails. Modelled from the spec (§4.3):
the entire word maps to one unknown id, partial matches are discarded. -/
def tokenizeWord (vocab : List Piece) (w : List Char) : List Nat :=
  match wordpieceLoop vocab w.length true w with
  | some ids => ids
  | none => [unkId vocab]

/-- Normalization `case_fold_utf8`. Modelled from the spec (§4.1): Unicode
case folding, embedded as per-character lowercasing. -/
def case_fold (s : List Char) : List Char := s.map Char.toLower

/-- Unframed token ids of a text: per-word decompositions flattened
(`enc.merge_dims(-2, -1)` in the source). -/
def coreTokens (vocab : List Piece) (t : List Char) : List Nat :=
  ((splitWords (case_fold t)).map (tokenizeWord vocab)).flatten

/-- The `CustomTokenizer.tokenize` method, per input text: case-fold,
tokenize each word, merge the word and word-piece axes, frame with
start/end ids. -/
def tokenize (vocab : List Piece) (reserved : List Piece) (t : List Char) : List Nat :=
  add_start_end reserved (coreTokens vocab t)

/-- The `CustomTokenizer.lookup` method on one id: `tf.gather(self.vocab, id)`,
which fails (raises) on an out-of-range index rather than clamping;
embedded as an `Option`. -/
def lookup (vocab : List Piece) (id : Nat) : Option Piece := vocab[id]?

/-- The `CustomTokenizer.get_vocab_size` method. -/
def get_vocab_size (vocab : List Piece) : Nat := vocab.length

/-- Continuation test: the piece starts with the `##` marker. -/
def isCont (p : Piece) : Bool := marker.isPrefixOf p

/-- Drop the two marker characters of a continuation piece. -/
def stripMarker (p : Piece) : Piece := p.drop 2

/-- Word-merging worker: `acc` is the word being assembled; a continuation
piece extends it, any other piece starts a new word. -/
def mergeAux : List Piece → Piece → List Piece
  | [], acc => [acc]
  | p :: ps, acc =>
    if isCont p then mergeAux ps (acc ++ stripMarker p)
    else acc :: mergeAux ps p

/-- Piece-to-word merging performed by `BertTokenizer.detokenize`: drop each
continuation marker and join the piece onto the word before it. Modelled
from the spec (§4.3). -/
def mergePieces : List Piece → List Piece
  | [] => []
  | p :: ps => mergeAux ps (if isCont p then stripMarker p else p)

/-- Keep test of `cleanup_text`: a word is dropped exactly when it
full-matches a reserved token other than `[UNK]`. -/
def keepToken (reserved : List Piece) (w : Piece) : Bool :=
  w == "[UNK]".toList || !(reserved.contains w)

/-- The `cleanup_text` function, per sequence: drop the words matching
reserved tokens except `[UNK]`, then join with single spaces. -/
def cleanup_text (reserved : List Piece) (words : List Piece) : Piece :=
  List.intercalate [' '] (words.filter (keepToken reserved))

/-- The `CustomTokenizer.detokenize` method, per sequence: look every id up,
merge pieces into words, clean up, join. `none` when some id is out of
range (the gather inside `BertTokenizer.detokenize` raises). -/
def detokenize (vocab : List Piece) (reserved : List Piece) (ids : List Nat) : Option Piece :=
  (ids.mapM (lookup vocab)).map (fun ps => cleanup_text reserved (mergePieces ps))

/-- The `write_vocab_file` function: one piece per line (`print` appends a
newline after each token); the result is the file's contents. -/
def write_vocab_file (vocab : List Piece) : List Char :=
  (vocab.map (fun tok => tok ++ ['\n'])).flatten

/-- Newline split returning `n + 1` chunks for `n` newlines, like
`str.split("\n")`. -/
def splitOnNl : List Char → List Piece
  | [] => [[]]
  | c :: cs =>
    match splitOnNl cs with
    | [] => [[c]]
    | w :: ws => if c = '\n' then [] :: w :: ws else (c :: w) :: ws

/-- Python `str.splitlines` restricted to `\n` boundaries: like
`split("\n")` but without a trailing empty line. -/
def splitlines (cs : List Char) : List Piece :=
  let ys := splitOnNl cs
  if ys.getLast? = some [] then ys.dropLast else ys

/-- Vocabulary loading in `CustomTokenizer.__init__`:
`pathlib.Path(vocab_path).read_text().splitlines()`, the piece on line `N`
getting id `N`; no validation of any kind is performed on the contents. -/
def loadVocab (contents : List Char) : List Piece := splitlines contents

/-- Concrete scenario vocabulary of the spec (§8), ids 0 to 8. -/
def vocab9 : List Piece :=
  ["[PAD]".toList, "[UNK]".toList, "[START]".toList, "[END]".toList,
   "he".toList, "##llo".toList, "wor".toList, "##ld".toList, "!".toList]

/-- Helper: mapping the lookup over a sequence fails as soon as one id fails. -/
theorem mapM_lookup_none (vocab : List Piece) (ids : List Nat) (i : Nat)
    (hmem : i ∈ ids) (hl : lookup vocab i = none) :
    ids.mapM (lookup vocab) = (none : Option (List Piece)) := by
  rw [← List.mapM'_eq_mapM]
  induction ids with
  | nil => cases hmem
  | cons a as ih =>
    rcases List.mem_cons.mp hmem with h | h
    · subst h
      simp [hl]
    · cases ha : lookup vocab a <;> simp [ha, ih h]

/-- C1: with the vocabulary `["[PAD]","[UNK]","[START]","[END]","he","##llo",
"wor","##ld","!"]` assigning ids 0..8, tokenizing the normalized text
`"hello world!"` yields exactly `[2, 4, 5, 6, 7, 8, 3]`, and detokenizing
that sequence with cleanup yields exactly `"hello world !"`. -/
theorem concrete_scenario :
    tokenize vocab9 RESERVED_TOKENS "hello world!".toList = [2, 4, 5, 6, 7, 8, 3] ∧
    detokenize vocab9 RESERVED_TOKENS [2, 4, 5, 6, 7, 8, 3] = some "hello world !".toList := by
  decide

/-- C2: for every input text, the framed token sequence returned by
`tokenize` begins with the configured start-token id, ends with the
configured end-token id, and its length is the number of core tokens plus
exactly 2, with the core tokens unchanged in between. -/
theorem framing_invariant (vocab reserved : List Piece) (t : List Char) :
    tokenize vocab reserved t = startIdx reserved :: coreTokens vocab t ++ [endIdx reserved] ∧
    (tokenize vocab reserved t).head? = some (startIdx reserved) ∧
    (tokenize vocab reserved t).getLast? = some (endIdx reserved) ∧
    (tokenize vocab reserved t).length = (coreTokens vocab t).length + 2 := by
  refine ⟨rfl, rfl, ?_, ?_⟩
  · show (startIdx reserved :: coreTokens vocab t ++ [endIdx reserved]).getLast? = _
    rw [show startIdx reserved :: coreTokens vocab t ++ [endIdx reserved]
          = (startIdx reserved :: coreTokens vocab t) ++ [endIdx reserved] from rfl,
        List.getLast?_concat]
  · simp [tokenize, add_start_end]

/-- C7: looking up an id outside `0..vocab_size-1` fails (`tf.gather`
raises; the id is never clamped and is mapped to no piece), and
detokenizing any id sequence containing such an id fails as well. -/
theorem out_of_range_fails (vocab reserved : List Piece) (ids : List Nat) (i : Nat)
    (hmem : i ∈ ids) (h : get_vocab_size vocab ≤ i) :
    lookup vocab i = none ∧ (∀ p : Piece, lookup vocab i ≠ some p) ∧
    detokenize vocab reserved ids = none := by
  have hl : lookup vocab i = none := by
    simp only [lookup]
    exact List.getElem?_eq_none h
  refine ⟨hl, by simp [hl], ?_⟩
  unfold detokenize
  rw [mapM_lookup_none vocab ids i hmem hl]
  rfl

/-- Witness for C7 at the concrete input: id 9 is out of range for the
9-piece vocabulary, and detokenizing `[9]` fails. -/
theorem out_of_range_fails_witness :
    lookup vocab9 9 = none ∧ detokenize vocab9 RESERVED_TOKENS [9] = none :=
  ⟨(out_of_range_fails vocab9 RESERVED_TOKENS [9] 9 (by decide) (by decide)).1,
   (out_of_range_fails vocab9 RESERVED_TOKENS [9] 9 (by decide) (by decide)).2.2⟩

/-- Helper: `splitOnNl` never returns the empty list of chunks. -/
theorem splitOnNl_ne_nil (cs : List Char) : splitOnNl cs ≠ [] := by
  cases cs with
  | nil => simp [splitOnNl]
  | cons c cs =>
    cases h : splitOnNl cs with
    | nil => simp [splitOnNl, h]
    | cons w ws =>
      by_cases hc : c = '\n' <;> simp [splitOnNl, h, hc]

/-- Helper: splitting on newlines after a newline-free first line. -/
theorem splitOnNl_append_line (p : Piece) (cs : List Char) (hp : '\n' ∉ p) :
    splitOnNl (p ++ '\n' :: cs) = p :: splitOnNl cs := by
  induction p with
  | nil =>
    cases h : splitOnNl cs with
    | nil => exact absurd h (splitOnNl_ne_nil cs)
    | cons w ws => simp [splitOnNl, h]
  | cons c p ih =>
    have hc : ¬c = '\n' := fun hh => hp (by simp [hh])
    have hp' : '\n' ∉ p := fun hh => hp (List.mem_cons_of_mem _ hh)
    simp [splitOnNl, ih hp', hc]

/-- Helper: splitting the written vocabulary file yields the pieces plus the
empty chunk after the final newline. -/
theorem splitOnNl_write (vocab : List Piece) (h : ∀ p ∈ vocab, '\n' ∉ p) :
    splitOnNl (write_vocab_file vocab) = vocab ++ [[]] := by
  induction vocab with
  | nil => simp [write_vocab_file, splitOnNl]
  | cons p v ih =>
    have hw : write_vocab_file (p :: v) = p ++ '\n' :: write_vocab_file v := by
      simp [write_vocab_file]
    rw [hw, splitOnNl_append_line p _ (h p (List.mem_cons_self p v)),
        ih (fun q hq => h q (List.mem_cons_of_mem _ hq))]
    rfl

/-- C6 counterexample: vocabulary loading performs no validation; a
duplicate-line file loads to a two-entry vocabulary and an empty file to
the empty vocabulary, with no failure of any kind (the loader in
`CustomTokenizer.__init__` is `read_text().splitlines()`). -/
theorem loadVocab_no_validation :
    loadVocab "a\na".toList = [['a'], ['a']] ∧ loadVocab [] = [] := by decide

/-- C6 amended: loading the written vocabulary file returns exactly the
written pieces, the piece on line `N` (0-indexed) having token id `N`;
empty and duplicate-line files are accepted silently, no
CorruptVocabularyError exists in the code. -/
theorem loadVocab_line_index (vocab : List Piece) (h : ∀ p ∈ vocab, '\n' ∉ p) :
    loadVocab (write_vocab_file vocab) = vocab ∧
    ∀ n : Nat, (loadVocab (write_vocab_file vocab))[n]? = vocab[n]? := by
  have hs : loadVocab (write_vocab_file vocab) = vocab := by
    unfold loadVocab splitlines
    rw [splitOnNl_write vocab h]
    simp [List.getLast?_concat]
  exact ⟨hs, fun n => by rw [hs]⟩

/-- Witness for C6 at a concrete input: a vocabulary with duplicate pieces
round-trips through the store without error. -/
theorem loadVocab_line_index_witness :
    loadVocab (write_vocab_file [['a'], ['a']]) = [['a'], ['a']] :=
  (loadVocab_line_index [['a'], ['a']] (by decide)).1

/-- C9: the sentinel ids are the index of the first reserved token equal to
`"[START]"` (resp. `"[END]"`); when the list contains neither, the
equality scan silently yields 0 (the pad position) for both, and framing
then inserts the pad id 0 in place of the missing sentinels. -/
theorem sentinel_scan (reserved : List Piece) (ids : List Nat) (i : Nat) :
    ((h : i < reserved.length) → reserved[i] = "[START]".toList →
      (∀ j (hj : j < i), reserved.get ⟨j, Nat.lt_trans hj h⟩ ≠ "[START]".toList) →
      startIdx reserved = i) ∧
    ("[START]".toList ∉ reserved → "[END]".toList ∉ reserved →
      startIdx reserved = 0 ∧ endIdx reserved = 0 ∧
      add_start_end reserved ids = 0 :: ids ++ [0]) := by
  constructor
  · intro h heq hne
    have hfi : reserved.findIdx? (fun t => t == "[START]".toList) = some i := by
      rw [List.findIdx?_eq_some_iff_getElem]
      exact ⟨h, by simpa using heq,
        fun j hj => by simpa [List.get_eq_getElem] using hne j hj⟩
    unfold startIdx argmaxEq
    rw [hfi]
  · intro h1 h2
    have hs : reserved.findIdx? (fun t => t == "[START]".toList) = none := by
      rw [List.findIdx?_eq_none_iff]
      intro x hx
      simp only [beq_eq_false_iff_ne, ne_eq]
      exact fun hh => h1 (hh ▸ hx)
    have he : reserved.findIdx? (fun t => t == "[END]".toList) = none := by
      rw [List.findIdx?_eq_none_iff]
      intro x hx
      simp only [beq_eq_false_iff_ne, ne_eq]
      exact fun hh => h2 (hh ▸ hx)
    refine ⟨?_, ?_, ?_⟩
    · unfold startIdx argmaxEq
      rw [hs]
    · unfold endIdx argmaxEq
      rw [he]
    · unfold add_start_end startIdx endIdx argmaxEq
      rw [hs, he]

/-- Witness for C9 at a concrete input: with reserved list
`["[PAD]", "[UNK]"]` (no start or end sentinel), framing inserts pad ids. -/
theorem sentinel_scan_witness :
    add_start_end ["[PAD]".toList, "[UNK]".toList] [7] = [0, 7, 0] :=
  ((sentinel_scan ["[PAD]".toList, "[UNK]".toList] [7] 0).2
    (by decide) (by decide)).2.2

/-- Helper: a successful lookup of every id yields the piece list, carrying
any pointwise property of the pieces. -/
theorem mapM_lookup_some (vocab : List Piece) (ids : List Nat) (P : Piece → Prop)
    (h : ∀ i ∈ ids, ∃ p, lookup vocab i = some p ∧ P p) :
    ∃ ps, ids.mapM (lookup vocab) = some ps ∧ ∀ p ∈ ps, P p := by
  simp only [← List.mapM'_eq_mapM]
  induction ids with
  | nil => exact ⟨[], rfl, by simp⟩
  | cons a as ih =>
    obtain ⟨p, hp, hP⟩ := h a (by simp)
    obtain ⟨ps, hps, hPs⟩ := ih (fun i hi => h i (by simp [hi]))
    refine ⟨p :: ps, by simp [hp, hps], ?_⟩
    intro q hq
    rcases List.mem_cons.mp hq with rfl | hq
    exacts [hP, hPs q hq]

/-- Helper: merging leaves a sequence without continuation pieces unchanged. -/
theorem mergeAux_no_cont (ps : List Piece) (acc : Piece)
    (h : ∀ p ∈ ps, isCont p = false) :
    mergeAux ps acc = acc :: ps := by
  induction ps generalizing acc with
  | nil => rfl
  | cons p ps ih =>
    simp [mergeAux, h p (by simp), ih p (fun q hq => h q (by simp [hq]))]

/-- Helper: `mergePieces` on a sequence without continuation pieces. -/
theorem mergePieces_no_cont (ps : List Piece) (h : ∀ p ∈ ps, isCont p = false) :
    mergePieces ps = ps := by
  cases ps with
  | nil => rfl
  | cons p ps =>
    simp [mergePieces, h p (by simp),
      mergeAux_no_cont ps p (fun q hq => h q (by simp [hq]))]

/-- C10: detokenizing an id sequence whose tokens are all reserved tokens
other than the unknown token (for example only the start and end
sentinels, the framing of an empty core sequence) returns the empty
string rather than failing. -/
theorem detokenize_reserved_only (vocab : List Piece) (ids : List Nat)
    (h : ∀ i ∈ ids, ∃ p, lookup vocab i = some p ∧
          p ∈ RESERVED_TOKENS ∧ p ≠ "[UNK]".toList) :
    detokenize vocab RESERVED_TOKENS ids = some [] := by
  obtain ⟨ps, hps, hP⟩ := mapM_lookup_some vocab ids _ h
  have hnc : ∀ p ∈ ps, isCont p = false := by
    intro p hp
    have := (hP p hp).1
    simp only [RESERVED_TOKENS, List.mem_cons, List.not_mem_nil, or_false] at this
    rcases this with rfl | rfl | rfl | rfl <;> decide
  have hdrop : (mergePieces ps).filter (keepToken RESERVED_TOKENS) = [] := by
    rw [mergePieces_no_cont ps hnc, List.filter_eq_nil_iff]
    intro p hp
    have hmem := (hP p hp).1
    have hne : ¬p = ['[', 'U', 'N', 'K', ']'] := by simpa using (hP p hp).2
    simp [keepToken, hne, List.elem_eq_mem, hmem]
  unfold detokenize
  rw [hps]
  simp [cleanup_text, hdrop, List.intercalate]

/-- Witness for C10 at the concrete input: the framing of an empty core
sequence, `[2, 3]`, detokenizes to the empty string. -/
theorem detokenize_reserved_only_witness :
    detokenize vocab9 RESERVED_TOKENS [2, 3] = some [] :=
  detokenize_reserved_only vocab9 [2, 3] (by
    intro i hi
    rcases List.mem_cons.mp hi with rfl | hi
    · exact ⟨"[START]".toList, by decide, by decide, by decide⟩
    · rcases List.mem_cons.mp hi with rfl | hi
      · exact ⟨"[END]".toList, by decide, by decide, by decide⟩
      · cases hi)

/-- C3: whenever all ids are in range, detokenize outputs exactly the
space-join of the cleaned word list: no reserved token other than `[UNK]`
survives the cleanup, every `[UNK]` occurrence is kept verbatim, and the
kept words are an order-preserving subsequence of the merged words. -/
theorem cleanup_invariant (vocab reserved : List Piece) (ids : List Nat) (ps : List Piece)
    (h : ids.mapM (lookup vocab) = some ps) :
    detokenize vocab reserved ids
      = some (List.intercalate [' '] ((mergePieces ps).filter (keepToken reserved))) ∧
    (∀ w ∈ (mergePieces ps).filter (keepToken reserved),
        w ∈ reserved → w = "[UNK]".toList) ∧
    ((mergePieces ps).filter (keepToken reserved)).count "[UNK]".toList
      = (mergePieces ps).count "[UNK]".toList ∧
    ((mergePieces ps).filter (keepToken reserved)).Sublist (mergePieces ps) := by
  refine ⟨by unfold detokenize; rw [h]; rfl, ?_, ?_, List.filter_sublist _⟩
  · intro w hw hres
    have hk := (List.mem_filter.mp hw).2
    simp only [keepToken, Bool.or_eq_true, beq_iff_eq, Bool.not_eq_true',
      List.elem_eq_mem, decide_eq_false_iff_not] at hk
    rcases hk with hk | hk
    · exact hk
    · exact absurd hres hk
  · exact List.count_filter (by simp [keepToken])

/-- Witness for C3 at a concrete input. -/
theorem cleanup_invariant_witness :
    detokenize vocab9 RESERVED_TOKENS [2, 1, 4, 7, 0, 3]
      = some "[UNK] held".toList :=
  ((cleanup_invariant vocab9 RESERVED_TOKENS [2, 1, 4, 7, 0, 3]
      ["[START]".toList, "[UNK]".toList, "he".toList, "##ld".toList,
       "[PAD]".toList, "[END]".toList] (by decide)).1).trans (by decide)

/-- Helper: a successful greedy match is a chunk of at least one character
whose (marked) form is a vocabulary piece. -/
theorem longestMatch_some (vocab : List Piece) (atStart : Bool) (cs : List Char) (k : Nat)
    (h : longestMatch vocab atStart cs = some k) :
    1 ≤ k ∧ markerize atStart (List.take k cs) ∈ vocab := by
  have hp := List.find?_some h
  have hm := List.mem_of_find?_eq_some h
  simp only [List.mem_reverse, List.mem_range'_1] at hm
  constructor
  · exact hm.1
  · simpa using hp

/-- Helper: the greedy loop fails on any text containing a character that
appears in no vocabulary piece. -/
theorem wordpieceLoop_none_of_absent (vocab : List Piece) (c : Char)
    (habs : ∀ p ∈ vocab, c ∉ p) :
    ∀ fuel atStart cs, c ∈ cs → wordpieceLoop vocab fuel atStart cs = none := by
  intro fuel
  induction fuel with
  | zero =>
    intro atStart cs hc
    cases cs with
    | nil => cases hc
    | cons a l => rfl
  | succ fuel ih =>
    intro atStart cs hc
    cases cs with
    | nil => cases hc
    | cons a l =>
      cases hm : longestMatch vocab atStart (a :: l) with
      | none => simp [wordpieceLoop, hm]
      | some k =>
        obtain ⟨-, hmem⟩ := longestMatch_some vocab atStart (a :: l) k hm
        have hnotk : c ∉ List.take k (a :: l) := by
          intro hk
          refine habs _ hmem ?_
          unfold markerize
          cases atStart <;> simp [hk]
        have hdrop : c ∈ List.drop k (a :: l) := by
          have := List.take_append_drop k (a :: l)
          have hc' := this ▸ hc
          rcases List.mem_append.mp hc' with h | h
          exacts [absurd h hnotk, h]
        simp [wordpieceLoop, hm, ih false (List.drop k (a :: l)) hdrop]

/-- C4: a word on which greedy longest-match decomposition fails at some
position maps to exactly one unknown-token id with no partial pieces; in
particular a word containing a character absent from every vocabulary
piece does so. Tokenization is total and never raises. -/
theorem unknown_fallback (vocab : List Piece) (w : List Char) :
    (wordpieceLoop vocab w.length true w = none →
      tokenizeWord vocab w = [unkId vocab] ∧ (tokenizeWord vocab w).length = 1) ∧
    (∀ c ∈ w, (∀ p ∈ vocab, c ∉ p) →
      wordpieceLoop vocab w.length true w = none ∧
      tokenizeWord vocab w = [unkId vocab]) := by
  constructor
  · intro h
    have ht : tokenizeWord vocab w = [unkId vocab] := by
      unfold tokenizeWord
      rw [h]
    exact ⟨ht, by rw [ht]; rfl⟩
  · intro c hc habs
    have hn := wordpieceLoop_none_of_absent vocab c habs w.length true w hc
    refine ⟨hn, ?_⟩
    unfold tokenizeWord
    rw [hn]

/-- Witness for C4 at the concrete input: the word `"z"` has no piece
containing `'z'` in the scenario vocabulary and maps to the single
unknown id 1. -/
theorem unknown_fallback_witness :
    wordpieceLoop vocab9 1 true ['z'] = none ∧ tokenizeWord vocab9 ['z'] = [1] := by
  have h := (unknown_fallback vocab9 ['z']).2 'z' (by decide) (by decide)
  exact ⟨h.1, h.2.trans (by decide)⟩

/-- Concatenated contents of a run of continuation pieces, markers dropped. -/
def contentsCont (ps : List Piece) : List Char := (ps.map stripMarker).flatten

/-- Word reassembled from its pieces: head piece raw, continuation contents
appended. -/
def wordOf (ps : List Piece) : List Char := ps.headI ++ contentsCont ps.tail

/-- Helper: a piece of the vocabulary is found again by its id. -/
theorem lookup_indexOf (vocab : List Piece) (p : Piece) (h : p ∈ vocab) :
    lookup vocab (List.indexOf p vocab) = some p := by
  induction vocab with
  | nil => cases h
  | cons q v ih =>
    by_cases hq : q = p
    · subst hq
      simp [lookup, List.indexOf, List.findIdx_cons]
    · have hbeq : (q == p) = false := by simpa using hq
      have hv : p ∈ v := by
        rcases List.mem_cons.mp h with rfl | hv
        exacts [absurd rfl hq, hv]
      simp only [lookup, List.indexOf, List.findIdx_cons, hbeq, cond_false]
      simp only [lookup, List.indexOf] at ih
      simpa using ih hv

/-- Helper: mapping the lookup over a cons. -/
theorem mapM_lookup_cons (vocab : List Piece) (i : Nat) (ids : List Nat) (p : Piece)
    (ps : List Piece) (h1 : lookup vocab i = some p)
    (h2 : ids.mapM (lookup vocab) = some ps) :
    (i :: ids).mapM (lookup vocab) = some (p :: ps) := by
  rw [← List.mapM'_eq_mapM] at h2 ⊢
  simp [h1, h2]

/-- Helper: mapping the lookup over an append. -/
theorem mapM_lookup_append (vocab : List Piece) (l₁ l₂ : List Nat)
    (ps₁ ps₂ : List Piece) (h1 : l₁.mapM (lookup vocab) = some ps₁)
    (h2 : l₂.mapM (lookup vocab) = some ps₂) :
    (l₁ ++ l₂).mapM (lookup vocab) = some (ps₁ ++ ps₂) := by
  rw [List.mapM_append, h1, h2]
  rfl

/-- Helper: in a continuation-position call, a successful greedy loop yields
ids that look up to continuation pieces whose stripped contents
concatenate back to the input text. -/
theorem wordpieceLoop_cont_spec (vocab : List Piece) :
    ∀ fuel cs ids, wordpieceLoop vocab fuel false cs = some ids →
    ∃ ps, ids.mapM (lookup vocab) = some ps ∧
      (∀ p ∈ ps, isCont p = true) ∧ contentsCont ps = cs := by
  intro fuel
  induction fuel with
  | zero =>
    intro cs ids h
    cases cs with
    | nil =>
      cases h
      exact ⟨[], rfl, by simp, rfl⟩
    | cons a l => cases h
  | succ fuel ih =>
    intro cs ids h
    cases cs with
    | nil =>
      cases h
      exact ⟨[], rfl, by simp, rfl⟩
    | cons a l =>
      rw [wordpieceLoop] at h
      split at h
      · cases h
      next k hm =>
        split at h
        · cases h
        next ids' hrec =>
          cases h
          obtain ⟨ps', hmap', hcont', hcs'⟩ := ih _ _ hrec
          obtain ⟨-, hmem⟩ := longestMatch_some vocab false (a :: l) k hm
          refine ⟨markerize false (List.take k (a :: l)) :: ps', ?_, ?_, ?_⟩
          · exact mapM_lookup_cons vocab _ _ _ _ (lookup_indexOf vocab _ hmem) hmap'
          · intro p hp
            rcases List.mem_cons.mp hp with rfl | hp
            · simp [markerize, isCont, marker, List.isPrefixOf]
            · exact hcont' p hp
          · simp [contentsCont, markerize, stripMarker, marker] at hcs' ⊢
            rw [hcs', List.take_append_drop]

/-- Helper: in a word-start call on a nonempty word, a successful greedy
loop yields a raw head chunk of at least one character followed by
continuation pieces, reassembling to the word. -/
theorem wordpieceLoop_start_spec (vocab : List Piece) (fuel : Nat) (cs : List Char)
    (ids : List Nat) (hne : cs ≠ []) (h : wordpieceLoop vocab fuel true cs = some ids) :
    ∃ k ps', 1 ≤ k ∧
      ids.mapM (lookup vocab) = some (List.take k cs :: ps') ∧
      (∀ q ∈ ps', isCont q = true) ∧
      List.take k cs ++ contentsCont ps' = cs := by
  cases cs with
  | nil => exact absurd rfl hne
  | cons a l =>
    cases fuel with
    | zero => cases h
    | succ fuel =>
      rw [wordpieceLoop] at h
      split at h
      · cases h
      next k hm =>
        split at h
        · cases h
        next ids' hrec =>
          cases h
          obtain ⟨ps', hmap', hcont', hcs'⟩ := wordpieceLoop_cont_spec vocab _ _ _ hrec
          obtain ⟨hk, hmem⟩ := longestMatch_some vocab true (a :: l) k hm
          refine ⟨k, ps', hk, ?_, hcont', ?_⟩
          · have : markerize true (List.take k (a :: l)) = List.take k (a :: l) := rfl
            exact mapM_lookup_cons vocab _ _ _ _ (this ▸ lookup_indexOf vocab _ hmem) hmap'
          · rw [hcs', List.take_append_drop]

/-- Shape every split word satisfies: nonempty, and a single punctuation
character or free of whitespace and punctuation. -/
def WordShape (w : List Char) : Prop :=
  w ≠ [] ∧ ((∃ c, w = [c] ∧ isPunct c = true) ∨
    ∀ c ∈ w, isSpace c = false ∧ isPunct c = false)

/-- Helper: a word emitted from the accumulator satisfies the shape. -/
theorem emit_sound (acc : List Char)
    (hacc : ∀ c ∈ acc, isSpace c = false ∧ isPunct c = false)
    (w : List Char) (hw : w ∈ (if acc.isEmpty then ([] : List (List Char)) else [acc])) :
    WordShape w := by
  split at hw
  · cases hw
  next he =>
    rw [List.mem_singleton.mp hw]
    refine ⟨fun hnil => he ?_, Or.inr hacc⟩
    rw [hnil]
    rfl

/-- Helper: every word of `splitWordsAux` satisfies the shape, provided the
accumulated fragment is clean. -/
theorem splitWordsAux_sound (s : List Char) :
    ∀ acc, (∀ c ∈ acc, isSpace c = false ∧ isPunct c = false) →
    ∀ w ∈ splitWordsAux s acc, WordShape w := by
  induction s with
  | nil =>
    intro acc hacc w hw
    rw [show splitWordsAux [] acc = if acc.isEmpty then [] else [acc] from rfl] at hw
    exact emit_sound acc hacc w hw
  | cons c cs ih =>
    intro acc hacc w hw
    rw [show splitWordsAux (c :: cs) acc
          = if isSpace c then (if acc.isEmpty then [] else [acc]) ++ splitWordsAux cs []
            else if isPunct c then
              (if acc.isEmpty then [] else [acc]) ++ [c] :: splitWordsAux cs []
            else splitWordsAux cs (acc ++ [c]) from rfl] at hw
    split at hw
    · rcases List.mem_append.mp hw with h1 | h1
      · exact emit_sound acc hacc w h1
      · exact ih [] (by simp) w h1
    next hsp =>
      split at hw
      next hpu =>
        rcases List.mem_append.mp hw with h1 | h1
        · exact emit_sound acc hacc w h1
        · rcases List.mem_cons.mp h1 with rfl | h1
          · exact ⟨by simp, Or.inl ⟨c, rfl, hpu⟩⟩
          · exact ih [] (by simp) w h1
      next hpu =>
        refine ih (acc ++ [c]) ?_ w hw
        intro d hd
        rcases List.mem_append.mp hd with h1 | h1
        · exact hacc d h1
        · rw [List.mem_singleton.mp h1]
          exact ⟨by simpa using hsp, by simpa using hpu⟩

/-- Helper: shape of every word produced by the splitter. -/
theorem splitWords_sound (s : List Char) (w : List Char) (hw : w ∈ splitWords s) :
    WordShape w :=
  splitWordsAux_sound s [] (by simp) w hw

/-- Helper: no split word equals a reserved token (reserved tokens contain
the punctuation character `[` and are longer than one character). -/
theorem word_shape_not_reserved (w : List Char) (hw : WordShape w) :
    w ∉ RESERVED_TOKENS := by
  intro hmem
  simp only [RESERVED_TOKENS, List.mem_cons, List.not_mem_nil, or_false] at hmem
  rcases hw.2 with ⟨c, rfl, -⟩ | hclean
  · rcases hmem with h | h | h | h <;> simp at h
  · have hbr : '[' ∈ w := by
      rcases hmem with rfl | rfl | rfl | rfl <;> decide
    exact absurd (hclean '[' hbr).2 (by decide)

/-- Helper: the greedy head chunk of a split word is not continuation-marked. -/
theorem take_not_cont (w : List Char) (k : Nat) (hk : 1 ≤ k) (hw : WordShape w) :
    isCont (List.take k w) = false := by
  obtain ⟨hne, hsh⟩ := hw
  cases w with
  | nil => exact absurd rfl hne
  | cons a l =>
    cases k with
    | zero => cases hk
    | succ k =>
      rcases hsh with ⟨c, hc, -⟩ | hclean
      · cases hc
        simp [isCont, marker, List.isPrefixOf]
      · have ha : ('#' == a) = false := by
          rw [beq_eq_false_iff_ne]
          intro hh
          exact absurd (hclean a (by simp)).2 (by rw [← hh]; decide)
        simp [isCont, marker, List.take_succ_cons, List.isPrefixOf, ha]

/-- Helper: folding continuation pieces into the word accumulator. -/
theorem mergeAux_cont_chunk (rest tail : List Piece) (p : Piece)
    (h : ∀ q ∈ rest, isCont q = true) :
    mergeAux (rest ++ tail) p = mergeAux tail (p ++ contentsCont rest) := by
  induction rest generalizing p with
  | nil => simp [contentsCont]
  | cons q rest ih =>
    simp only [List.cons_append, mergeAux, h q (by simp), if_true, List.append_eq]
    rw [ih _ (fun r hr => h r (by simp [hr]))]
    simp [contentsCont, List.append_assoc]

/-- Helper: merging a flattened list of per-word piece groups recovers one
word per group. -/
theorem mergeAux_groups (pss : List (List Piece)) (fin acc : Piece)
    (hsh : ∀ ps ∈ pss, ∃ p rest, ps = p :: rest ∧ isCont p = false ∧
      ∀ q ∈ rest, isCont q = true)
    (hfin : isCont fin = false) :
    mergeAux (pss.flatten ++ [fin]) acc = acc :: pss.map wordOf ++ [fin] := by
  induction pss generalizing acc with
  | nil => simp [mergeAux, hfin]
  | cons ps pss ih =>
    obtain ⟨p, rest, rfl, hpF, hrT⟩ := hsh (ps) (by simp)
    simp only [List.flatten_cons, List.cons_append, List.append_assoc, mergeAux, hpF,
      Bool.false_eq_true, if_false, List.append_eq]
    rw [mergeAux_cont_chunk rest _ p hrT,
      ih _ (fun qs hqs => hsh qs (by simp [hqs]))]
    simp [wordOf, contentsCont]

/-- Helper: a word not in the reserved list passes the cleanup filter. -/
theorem keepToken_of_not_mem (reserved : List Piece) (w : Piece) (h : w ∉ reserved) :
    keepToken reserved w = true := by
  simp [keepToken, List.elem_eq_mem, h]

/-- Helper: pieces of one successfully decomposed word: an unmarked head
chunk and continuation pieces reassembling to the word. -/
theorem tokenizeWord_pieces (vocab : List Piece) (w : List Char) (ids : List Nat)
    (hw : WordShape w) (h : wordpieceLoop vocab w.length true w = some ids) :
    ∃ p rest, ids.mapM (lookup vocab) = some (p :: rest) ∧
      isCont p = false ∧ (∀ q ∈ rest, isCont q = true) ∧
      p ++ contentsCont rest = w ∧ tokenizeWord vocab w = ids := by
  obtain ⟨k, ps', hk, hmap, hcont, hcw⟩ :=
    wordpieceLoop_start_spec vocab w.length w ids hw.1 h
  exact ⟨List.take k w, ps', hmap, take_not_cont w k hk hw, hcont, hcw,
    by unfold tokenizeWord; rw [h]⟩

/-- Helper: the flattened core ids of a list of decomposable words look up
to a flattened list of per-word piece groups reassembling to the words. -/
theorem core_pieces (vocab : List Piece) (ws : List (List Char))
    (hsh : ∀ w ∈ ws, WordShape w)
    (hdec : ∀ w ∈ ws, wordpieceLoop vocab w.length true w ≠ none) :
    ∃ pss : List (List Piece),
      ((ws.map (tokenizeWord vocab)).flatten).mapM (lookup vocab) = some pss.flatten ∧
      (∀ ps ∈ pss, ∃ p rest, ps = p :: rest ∧ isCont p = false ∧
        ∀ q ∈ rest, isCont q = true) ∧
      pss.map wordOf = ws := by
  induction ws with
  | nil => exact ⟨[], rfl, by simp, by simp⟩
  | cons w ws ih =>
    obtain ⟨pss, h1, h2, h3⟩ :=
      ih (fun x hx => hsh x (by simp [hx])) (fun x hx => hdec x (by simp [hx]))
    cases hwl : wordpieceLoop vocab w.length true w with
    | none => exact absurd hwl (hdec w (by simp))
    | some ids =>
      obtain ⟨p, rest, hmap, hpF, hrT, hcw, htw⟩ :=
        tokenizeWord_pieces vocab w ids (hsh w (by simp)) hwl
      refine ⟨(p :: rest) :: pss, ?_, ?_, ?_⟩
      · rw [List.map_cons, List.flatten_cons, htw]
        have := mapM_lookup_append vocab ids _ _ _ hmap h1
        simpa [List.flatten_cons] using this
      · intro ps hps
        rcases List.mem_cons.mp hps with rfl | hps
        · exact ⟨p, rest, rfl, hpF, hrT⟩
        · exact h2 ps hps
      · have hcw' : wordOf (p :: rest) = w := by
          simpa [wordOf, contentsCont] using hcw
        rw [List.map_cons, h3, hcw']

/-- C5: for a text all of whose split words decompose into vocabulary
pieces (and a vocabulary starting with the reserved tokens), detokenize
after tokenize returns exactly the single-space join of the
punctuation-aware word split of the normalized text — i.e. `normalize(t)`
up to the word-join rule; original whitespace and casing are not
recovered. -/
theorem round_trip (vocab : List Piece) (t : List Char)
    (hres : vocab.take 4 = RESERVED_TOKENS)
    (hdec : ∀ w ∈ splitWords (case_fold t), wordpieceLoop vocab w.length true w ≠ none) :
    detokenize vocab RESERVED_TOKENS (tokenize vocab RESERVED_TOKENS t)
      = some (List.intercalate [' '] (splitWords (case_fold t))) := by
  obtain ⟨pss, hmapc, hshape, hwords⟩ :=
    core_pieces vocab (splitWords (case_fold t))
      (fun w hw => splitWords_sound _ w hw) hdec
  have hv : vocab = RESERVED_TOKENS ++ vocab.drop 4 := by
    conv_lhs => rw [← List.take_append_drop 4 vocab]
    rw [hres]
  have hlook2 : lookup vocab 2 = some "[START]".toList := by
    unfold lookup
    rw [hv, List.getElem?_append_left (by decide)]
    rfl
  have hlook3 : lookup vocab 3 = some "[END]".toList := by
    unfold lookup
    rw [hv, List.getElem?_append_left (by decide)]
    rfl
  have htok : tokenize vocab RESERVED_TOKENS t
      = 2 :: ((splitWords (case_fold t)).map (tokenizeWord vocab)).flatten ++ [3] := by
    unfold tokenize add_start_end coreTokens
    rw [show startIdx RESERVED_TOKENS = 2 from by decide,
        show endIdx RESERVED_TOKENS = 3 from by decide]
  have hfull : (2 :: ((splitWords (case_fold t)).map (tokenizeWord vocab)).flatten ++ [3]).mapM
        (lookup vocab)
      = some ("[START]".toList :: pss.flatten ++ ["[END]".toList]) := by
    refine mapM_lookup_cons vocab 2 _ _ _ hlook2 ?_
    refine mapM_lookup_append vocab _ _ _ _ hmapc ?_
    exact mapM_lookup_cons vocab 3 [] _ [] hlook3 rfl
  have hmerge : mergePieces ("[START]".toList :: pss.flatten ++ ["[END]".toList])
      = "[START]".toList :: pss.map wordOf ++ ["[END]".toList] := by
    have hSnc : isCont "[START]".toList = false := by decide
    rw [show mergePieces ("[START]".toList :: pss.flatten ++ ["[END]".toList])
          = mergeAux (pss.flatten ++ ["[END]".toList])
              (if isCont "[START]".toList then stripMarker "[START]".toList
               else "[START]".toList) from rfl,
        hSnc]
    simp only [Bool.false_eq_true, if_false]
    exact mergeAux_groups pss "[END]".toList "[START]".toList hshape (by decide)
  have hkeep : ∀ w ∈ splitWords (case_fold t), keepToken RESERVED_TOKENS w = true :=
    fun w hw =>
      keepToken_of_not_mem _ w (word_shape_not_reserved w (splitWords_sound _ w hw))
  have hclean : cleanup_text RESERVED_TOKENS
        ("[START]".toList :: pss.map wordOf ++ ["[END]".toList])
      = List.intercalate [' '] (splitWords (case_fold t)) := by
    unfold cleanup_text
    congr 1
    rw [hwords]
    simp only [List.filter_cons, List.filter_append,
      show keepToken RESERVED_TOKENS "[START]".toList = false from by decide,
      show keepToken RESERVED_TOKENS "[END]".toList = false from by decide,
      Bool.false_eq_true, if_false, List.filter_nil, List.append_nil]
    exact List.filter_eq_self.mpr hkeep
  unfold detokenize
  rw [htok, hfull]
  simp only [Option.map_some']
  rw [hmerge, hclean]

/-- Witness for C5 at the concrete input `"hello world!"` with the scenario
vocabulary. -/
theorem round_trip_witness :
    detokenize vocab9 RESERVED_TOKENS
        (tokenize vocab9 RESERVED_TOKENS "hello world!".toList)
      = some "hello world !".toList :=
  (round_trip vocab9 "hello world!".toList (by decide) (by decide)).trans (by decide)

/-- Pieces of one word under the current vocabulary (ids mapped back to
pieces), used to tally merge candidates. -/
def piecesOf (vocab : List Piece) (w : List Char) : List Piece :=
  (tokenizeWord vocab w).filterMap (lookup vocab)

/-- Adjacent symbol pairs of a piece sequence. -/
def adjacentPairs (ps : List Piece) : List (Piece × Piece) := ps.zip ps.tail

/-- Merge-candidate tally over the corpus, with multiplicity. Modelled from
the spec (§4.2): tally adjacent symbol pairs over the corpus under the
current vocabulary. -/
def corpusPairs (vocab : List Piece) (corpus : List (List Char)) : List (Piece × Piece) :=
  (corpus.map (fun s =>
    ((splitWords (case_fold s)).map (fun w => adjacentPairs (piecesOf vocab w))).flatten)).flatten

/-- Selection key of a merge candidate: score (frequency in the tally)
descending, then the pair itself in lexicographic order — the fixed total
tie-break order. -/
def candKey (cs : List (Piece × Piece)) (p : Piece × Piece) :
    (OrderDual Nat) ×ₗ (Piece ×ₗ Piece) :=
  toLex (OrderDual.toDual (cs.count p), toLex (p.1, p.2))

/-- Modelled from the spec (§4.2): pick the most beneficial merge candidate,
scoring by frequency, ties broken by the fixed lexicographic order on the
pair (the learner `bert_vocab_from_dataset` is an external library call;
the spec leaves the scoring rule open and requires a deterministic
tie-break, `e.g. lexicographic on the pair`). -/
def selectMerge (cs : List (Piece × Piece)) : Option (Piece × Piece) :=
  cs.argmin (candKey cs)

/-- Piece formed by a merge: the left symbol followed by the right symbol
with its continuation marker dropped. -/
def mergedPiece (p : Piece × Piece) : Piece := p.1 ++ stripMarker p.2

/-- One learning step: extend the vocabulary by the selected merge, or stop
when no candidate remains. Modelled from the spec (§4.2). -/
def learnStep (corpus : List (List Char)) (vocab : List Piece) : Option (List Piece) :=
  (selectMerge (corpusPairs vocab corpus)).map (fun p => vocab ++ [mergedPiece p])

/-- Learner loop, bounded by the number of pieces still to add. -/
def learnLoop (corpus : List (List Char)) : Nat → List Piece → List Piece
  | 0, vocab => vocab
  | fuel + 1, vocab =>
    match learnStep corpus vocab with
    | none => vocab
    | some v => learnLoop corpus fuel v

/-- Corpus alphabet in character order. Modelled from the spec (§4.2). -/
def alphabet (corpus : List (List Char)) : List Char :=
  ((corpus.map case_fold).flatten.dedup).mergeSort (fun a b => decide (a ≤ b))

/-- The vocabulary learner. Modelled from the spec (§4.2): seed with the
reserved tokens, then the alphabet in word-initial and continuation form,
then merge iteratively until the target size is reached or no beneficial
merge remains. -/
def learn (corpus : List (List Char)) (target_size : Nat) (reserved : List Piece) :
    List Piece :=
  let base := reserved ++ (alphabet corpus).map (fun c => [c])
      ++ (alphabet corpus).map (fun c => marker ++ [c])
  learnLoop corpus (target_size - base.length) base

/-- Helper: the candidate key is injective (the pair is a component). -/
theorem candKey_injective (cs : List (Piece × Piece)) :
    Function.Injective (candKey cs) := by
  intro p q h
  unfold candKey at h
  have h2 := congrArg (fun x => (ofLex x).2) h
  simp only [ofLex_toLex] at h2
  have h3 := toLex_inj.mp h2
  cases p
  cases q
  simpa using h3

/-- Helper: `argmin` with an injective key is invariant under permutation. -/
theorem argmin_perm_of_injective {α β : Type} [LinearOrder β] (f : α → β)
    (hinj : Function.Injective f) (l l' : List α) (hperm : l.Perm l') :
    l.argmin f = l'.argmin f := by
  cases h : l.argmin f with
  | none =>
    rw [List.argmin_eq_none] at h
    subst h
    rw [← List.Perm.nil_eq hperm]
    rfl
  | some a =>
    have ha : a ∈ l := List.argmin_mem h
    cases h' : l'.argmin f with
    | none =>
      rw [List.argmin_eq_none] at h'
      subst h'
      cases hperm.mem_iff.mp ha
    | some a' =>
      have ha' : a' ∈ l' := List.argmin_mem h'
      have h1 : f a ≤ f a' := List.le_of_mem_argmin (hperm.mem_iff.mpr ha') h
      have h2 : f a' ≤ f a := List.le_of_mem_argmin (hperm.mem_iff.mp ha) h'
      rw [hinj (le_antisymm h1 h2)]

/-- C8: the learner is deterministic — two runs on the same inputs yield the
identical vocabulary — and the merge selection follows a fixed total
order: the selected candidate is a tally member that beats every other
candidate either by strictly higher score or, at equal score, by the
lexicographic order on the pair; the selection is moreover independent of
the tally's ordering. -/
theorem learn_deterministic :
    (∀ corpus target reserved, learn corpus target reserved = learn corpus target reserved) ∧
    (∀ cs p, selectMerge cs = some p → p ∈ cs ∧
      ∀ q ∈ cs, q ≠ p → cs.count q < cs.count p ∨
        (cs.count q = cs.count p ∧ toLex p < toLex q)) ∧
    (∀ cs cs', cs.Perm cs' → selectMerge cs = selectMerge cs') := by
  refine ⟨fun _ _ _ => rfl, ?_, ?_⟩
  · intro cs p h
    refine ⟨List.argmin_mem h, ?_⟩
    intro q hq hne
    have hle : candKey cs p ≤ candKey cs q := List.le_of_mem_argmin hq h
    unfold candKey at hle
    rw [Prod.Lex.le_iff] at hle
    rcases hle with h1 | ⟨h1, h2⟩
    · left
      simpa using h1
    · right
      refine ⟨by simpa using h1.symm, ?_⟩
      have hpq : p ≠ q := fun hh => hne hh.symm
      have hlt : toLex (p.1, p.2) < toLex (q.1, q.2) := by
        refine lt_of_le_of_ne (by simpa using h2) (fun heq => hpq ?_)
        have := toLex_inj.mp heq
        cases p
        cases q
        simpa using this
      cases p
      cases q
      simpa using hlt
  · intro cs cs' hperm
    have hkey : candKey cs' = candKey cs := by
      funext p
      unfold candKey
      have : cs.count p = cs'.count p :=
        (List.count_eq_countP _ _).trans
          ((hperm.countP_eq _).trans (List.count_eq_countP _ _).symm)
      rw [this]
    unfold selectMerge
    rw [hkey]
    exact argmin_perm_of_injective (candKey cs) (candKey_injective cs) cs cs' hperm

/-- Witness for C8 at concrete inputs: the selection is order-independent on
a concrete two-candidate tally, and a concrete learner run equals itself. -/
theorem learn_deterministic_witness :
    selectMerge [("c".toList, "##d".toList), ("a".toList, "##b".toList)]
        = selectMerge [("a".toList, "##b".toList), ("c".toList, "##d".toList)] ∧
    learn ["ab".toList] 6 RESERVED_TOKENS = learn ["ab".toList] 6 RESERVED_TOKENS :=
  ⟨learn_deterministic.2.2 _ _ (by decide),
   learn_deterministic.1 ["ab".toList] 6 RESERVED_TOKENS⟩

end Tok
